import Mathlib

/-!
Verification of the low-level multiplication core of the ramp bignum
library (src/ll/mul.rs), shallowly embedded over lists of limbs.

A limb is an unsigned 64-bit machine word, modelled as a natural number
together with the invariant that it is below the base B = 2^64.  A limb
buffer {p, n} is modelled as a list of naturals, least significant limb
first.  In-place pointer code is rendered functionally: each operation
takes the current contents of the regions it reads and returns the new
contents of the regions it writes, in the exact order of the source.
-/

namespace RampMul

/-- The limb base: limbs are 64-bit words. -/
def B : Nat := 2 ^ 64

/-- Base-B value of a little-endian limb list: value({p,n}) = sum p[i] B^i. -/
def value : List Nat → Nat
  | [] => 0
  | a :: l => a + B * value l

/-- All entries of the list are genuine limbs (below the base). -/
def bounded (l : List Nat) : Prop := ∀ a ∈ l, a < B

instance (l : List Nat) : Decidable (bounded l) := List.decidableBAll (fun a => a < B) l

/-! ## Single-limb kernels (src/ll/mul.rs, mul_1_generic / addmul_1_generic)

The loop body of mul_1_generic: (hpl, lpl) = xp[i].mul_hilo(vl);
(lpl, carry) = lpl.add_overflow(cl); cl = hpl + carry; wp[i] = lpl.
mul_hilo gives the double-width product split at B, add_overflow the
wrapped sum and its carry bit. -/

def mul_1_go : List Nat → Nat → Nat → List Nat × Nat
  | [], _, cl => ([], cl)
  | xl :: xp, vl, cl =>
    let hpl := xl * vl / B
    let lpl := xl * vl % B
    let r := mul_1_go xp vl (hpl + (lpl + cl) / B)
    ((lpl + cl) % B :: r.1, r.2)

/-- mul_1(wp, xp, n, vl): writes the n low limbs of {xp,n}*vl, returns the
overflow limb.  The list of written limbs is returned together with the
returned carry. -/
def mul_1 (xp : List Nat) (vl : Nat) : List Nat × Nat := mul_1_go xp vl 0

/-- Loop body of addmul_1_generic: additionally reads wp[i], adds the low
product limb into it, and folds the second carry into cl. -/
def addmul_1_go : List Nat → List Nat → Nat → Nat → List Nat × Nat
  | wl :: wp, xl :: xp, vl, cl =>
    let hpl := xl * vl / B
    let lpl := xl * vl % B
    let lpl1 := (lpl + cl) % B
    let cl1 := hpl + (lpl + cl) / B
    let r := addmul_1_go wp xp vl (cl1 + (wl + lpl1) / B)
    ((wl + lpl1) % B :: r.1, r.2)
  | _, _, _, cl => ([], cl)

/-- addmul_1(wp, xp, n, vl): {wp,n} += {xp,n}*vl, returns the high limb. -/
def addmul_1 (wp xp : List Nat) (vl : Nat) : List Nat × Nat := addmul_1_go wp xp vl 0

/-! ## Primitive collaborators of the core.

Modelled from the spec: the add/sub/compare/copy primitives consumed by
the multiplication core (spec section 6) are not part of the sources
under verification; they are modelled here following their documented
contracts: add_n / sub_n are n-limb adds and subtracts returning the
carry / borrow bit, add / sub are the mixed-length versions that
propagate the carry / borrow through the remaining high limbs, cmp is
the lexicographic comparison from the most significant limb down,
is_zero tests a region for zero, and incr adds a limb, carrying through
as many higher limbs as needed. -/

def add_n_go : List Nat → List Nat → Nat → List Nat × Nat
  | a :: l1, b :: l2, c =>
    let r := add_n_go l1 l2 ((a + b + c) / B)
    ((a + b + c) % B :: r.1, r.2)
  | _, _, c => ([], c)

/-- Modelled from the spec: add_n(rp, ap, bp, n) -> carry. -/
def add_n (a b : List Nat) : List Nat × Nat := add_n_go a b 0

def sub_n_go : List Nat → List Nat → Nat → List Nat × Nat
  | a :: l1, b :: l2, br =>
    let r := sub_n_go l1 l2 (if a < b + br then 1 else 0)
    ((a + B - (b + br)) % B :: r.1, r.2)
  | _, _, br => ([], br)

/-- Modelled from the spec: sub_n(rp, ap, bp, n) -> borrow. -/
def sub_n (a b : List Nat) : List Nat × Nat := sub_n_go a b 0

/-- Modelled from the spec: incr(p, v) adds limb v at the base of the
region and propagates the carry until an add does not overflow; the
returned Nat is the carry that would propagate past the end of the
region. -/
def incr : List Nat → Nat → List Nat × Nat
  | [], v => ([], v)
  | a :: l, v =>
    if a + v < B then ((a + v) :: l, 0)
    else
      let r := incr l ((a + v) / B)
      ((a + v) % B :: r.1, r.2)

/-- Modelled from the spec: decrement counterpart used by the mixed-length
sub to propagate a borrow through the high limbs. -/
def decrBorrow : List Nat → Nat → List Nat × Nat
  | [], br => ([], br)
  | a :: l, br =>
    if br ≤ a then ((a - br) :: l, 0)
    else
      let r := decrBorrow l 1
      ((a + B - br) % B :: r.1, r.2)

/-- Modelled from the spec: add(rp, ap, an, bp, bn) -> carry, with an >= bn:
a bn-limb add_n followed by carry propagation through the high an - bn
limbs. -/
def addMixed (a b : List Nat) : List Nat × Nat :=
  let low := add_n (a.take b.length) b
  let high := incr (a.drop b.length) low.2
  (low.1 ++ high.1, high.2)

/-- Modelled from the spec: sub(rp, ap, an, bp, bn) -> borrow, an >= bn. -/
def subMixed (a b : List Nat) : List Nat × Nat :=
  let low := sub_n (a.take b.length) b
  let high := decrBorrow (a.drop b.length) low.2
  (low.1 ++ high.1, high.2)

/-- Comparison on most-significant-first lists. -/
def cmpMS : List Nat → List Nat → Ordering
  | a :: l1, b :: l2 =>
    if a < b then Ordering.lt
    else if b < a then Ordering.gt
    else cmpMS l1 l2
  | _, _ => Ordering.eq

/-- Modelled from the spec: cmp(ap, bp, n), lexicographic from the most
significant limb down. -/
def cmp (a b : List Nat) : Ordering := cmpMS a.reverse b.reverse

/-- Modelled from the spec: is_zero(p, n). -/
def is_zero (l : List Nat) : Bool := l.all fun a => a == 0

/-! ## Dispatch (src/ll/mul.rs, mul lines 305-326 and mul_rec lines 347-358) -/

/-- The three algorithm branches the dispatchers choose between. -/
inductive Algo
  | basecase
  | unbalanced
  | toom22
deriving DecidableEq

/-- TOOM22_THRESHOLD = 20 (src/ll/mul.rs line 26). -/
def TOOM22_THRESHOLD : Nat := 20

/-- Branch chosen by mul (lines 312-324): base case when
ys <= TOOM22_THRESHOLD, otherwise unbalanced when xs*2 >= ys*3,
otherwise toom22. -/
def mulBranch (xs ys : Nat) : Algo :=
  if ys ≤ TOOM22_THRESHOLD then Algo.basecase
  else if ys * 3 ≤ xs * 2 then Algo.unbalanced
  else Algo.toom22

/-- Branch chosen by mul_rec (lines 351-357): base case when
ys < TOOM22_THRESHOLD (strict!), otherwise as in mul. -/
def mulRecBranch (xs ys : Nat) : Algo :=
  if ys < TOOM22_THRESHOLD then Algo.basecase
  else if ys * 3 ≤ xs * 2 then Algo.unbalanced
  else Algo.toom22

/-! ## Base-case multiplier (src/ll/mul.rs, mul_basecase lines 328-343)

The pointer code keeps a sliding window: after j products the limbs
wp[0..j) are final and wp[j..j+xs] hold the running sums.  The window
wp[j..j+xs) is the state threaded below; each addmul_1 finalises its
lowest limb and appends the returned high limb. -/

def bcLoop (xp : List Nat) : List Nat → List Nat → List Nat
  | [], w => w
  | yl :: yp, w =>
    let r := addmul_1 w xp yl
    match r.1 with
    | [] => []
    | d :: rest => d :: bcLoop xp yp (rest ++ [r.2])

/-- mul_basecase(wp, xp, xs, yp, ys): one mul_1 pass seeded with yp[0] and
wp[xs] = carry, then ys - 1 addmul_1 passes at increasing offsets. -/
def mul_basecase (xp yp : List Nat) : List Nat :=
  match yp with
  | [] => []
  | yl :: yrest =>
    let r := mul_1 xp yl
    match r.1 with
    | [] => []
    | d :: rest => d :: bcLoop xp yrest (rest ++ [r.2])

/-! ## Toom-22 (src/ll/mul.rs, mul_toom22 lines 360-507)

The function is written against an abstract recursive multiplier
recur standing for mul_rec with the scratch tail already sliced; the
fueled knot is tied below in mulRecF.  The output buffer {wp, xs+ys} is
threaded through the exact sequence of in-place operations of the
source: zx1 and zy1 are built (into wp, which the z0 product then
overwrites), the three sub-products are laid out as z0 ++ z2, and the
accumulation performs the three adds, the signed z1 step and the two
final incr calls, in source order.  Scalar carries use wrapping Limb
arithmetic, i.e. arithmetic modulo B, exactly as the Limb type does;
in particular the z1-subtraction step computes cy - borrow as
(cy + (B - borrow)) % B.  The guard reproduces the debug assertions at
lines 384-394; when they fail the model returns [] (the Rust debug
build stops on the assertion there). -/

/-- Intermediate state of mul_toom22 just before the signed z1 step:
block size nl, sign z1_neg of the true middle term, the three
sub-products as laid out in memory, the middle region wp[nl..3nl)
after the three unsigned adds, and the two deferred carries cy2
(for offset 2nl) and cyA (the value of cy after the third add). -/
structure Toom22State where
  nl : Nat
  neg : Bool
  z0 : List Nat
  z1 : List Nat
  z2 : List Nat
  mid : List Nat
  cy2 : Nat
  cyA : Nat

/-- The shared computation of mul_toom22 from entry through the third
accumulation add (lines 387-490). -/
def toom22Parts (recur : List Nat → List Nat → List Nat) (x y : List Nat) : Toom22State :=
  let xs := x.length
  let ys := y.length
  let xh := xs / 2
  let nl := xs - xh
  let yh := ys - nl
  let x0 := x.take nl
  let x1 := x.drop nl
  let y0 := y.take nl
  let y1 := y.drop nl
  let zx : List Nat × Bool :=
    if nl = xh then
      if cmp x0 x1 = Ordering.lt then ((sub_n x1 x0).1, true)
      else ((sub_n x0 x1).1, false)
    else
      if is_zero (x0.drop xh) ∧ cmp (x0.take xh) x1 = Ordering.lt then
        ((sub_n x1 (x0.take xh)).1 ++ List.replicate (nl - xh) 0, true)
      else ((subMixed x0 x1).1, false)
  let zy : List Nat × Bool :=
    if nl = yh then
      if cmp y0 y1 = Ordering.lt then ((sub_n y1 y0).1, true)
      else ((sub_n y0 y1).1, false)
    else
      if is_zero (y0.drop yh) ∧ cmp (y0.take yh) y1 = Ordering.lt then
        ((sub_n y1 (y0.take yh)).1 ++ List.replicate (nl - yh) 0, true)
      else ((subMixed y0 y1).1, false)
  let z1 := recur zx.1 zy.1
  let z0 := recur x0 y0
  let z2 := recur x1 y1
  let s1 := add_n (z2.take nl) (z0.drop nl)
  let s2 := add_n (z0.take nl) s1.1
  let s3 := addMixed s1.1 (z2.drop nl)
  { nl := nl
    neg := Bool.xor zx.2 zy.2
    z0 := z0
    z1 := z1
    z2 := z2
    mid := s2.1 ++ s3.1
    cy2 := (s1.2 + s2.2) % B
    cyA := (s1.2 + s3.2) % B }

/-- mul_toom22(wp, xp, xs, yp, ys, scratch), as the final contents of
{wp, xs+ys}. -/
def toom22With (recur : List Nat → List Nat → List Nat) (x y : List Nat) : List Nat :=
  let xs := x.length
  let ys := y.length
  let xh := xs / 2
  let nl := xs - xh
  let yh := ys - nl
  if ys ≤ xs ∧ xs < ys * 2 ∧ 0 < xh ∧ xh ≤ nl ∧ 0 < yh ∧ yh ≤ xh then
    let p := toom22Parts recur x y
    let s4 : List Nat × Nat :=
      if p.neg then
        let r := add_n p.mid p.z1
        (r.1, (p.cyA + r.2) % B)
      else
        let r := sub_n p.mid p.z1
        (r.1, (p.cyA + (B - r.2)) % B)
    let w := p.z0.take nl ++ s4.1 ++ p.z2.drop nl
    let t := incr (w.drop (2 * nl)) p.cy2
    let w2 := w.take (2 * nl) ++ t.1
    let u := incr (w2.drop (3 * nl)) s4.2
    w2.take (3 * nl) ++ u.1
  else []

/-- The pair (cy, borrow) at the z1-subtraction step (lines 499-502) of
mul_toom22, in the branch where the true middle term z1 is non-negative
(z1_neg false); none when z1_neg is true or the entry assertions fail. -/
def toom22CyBorrow (recur : List Nat → List Nat → List Nat) (x y : List Nat) :
    Option (Nat × Nat) :=
  let xs := x.length
  let ys := y.length
  let xh := xs / 2
  let nl := xs - xh
  let yh := ys - nl
  if ys ≤ xs ∧ xs < ys * 2 ∧ 0 < xh ∧ xh ≤ nl ∧ 0 < yh ∧ yh ≤ xh then
    let p := toom22Parts recur x y
    if p.neg then none else some (p.cyA, (sub_n p.mid p.z1).2)
  else none

/-! ## Unbalanced multiplier (src/ll/mul.rs, mul_unbalanced lines 515-558)

State of the streaming loop: done = the finalised limbs wp[0..off),
cur = the ys limbs wp[off..off+ys) still receiving carries, xr = the
unconsumed part of x.  Each iteration multiplies the next ys-limb block
of x by y into w_tmp, adds the low half into cur, copies the high half
in as the new cur and lets incr apply the carry to it.  The loop fuel
only bounds the iteration count; it is chosen large enough by callers. -/

def uloop (tm : List Nat → List Nat → List Nat) (y : List Nat) :
    Nat → List Nat → List Nat → List Nat → List Nat × List Nat × List Nat
  | 0, done, cur, xr => (done, cur, xr)
  | f + 1, done, cur, xr =>
    if y.length * 2 ≤ xr.length then
      let wt := tm (xr.take y.length) y
      let a := add_n cur (wt.take y.length)
      let h := incr ((wt.drop y.length).take y.length) a.2
      uloop tm y f (done ++ a.1) h.1 (xr.drop y.length)
    else (done, cur, xr)

/-- mul_unbalanced(wp, xp, xs, yp, ys, scratch): tm plays mul_toom22 and
mr plays mul_rec (both with scratch already in hand).  The guard mirrors
the debug assertion xs > ys. -/
def unbalWith (tm mr : List Nat → List Nat → List Nat) (loopFuel : Nat)
    (x y : List Nat) : List Nat :=
  if y.length < x.length then
    let ys := y.length
    let w0 := tm (x.take ys) y
    let st := uloop tm y loopFuel (w0.take ys) (w0.drop ys) (x.drop ys)
    let wt := if ys ≤ st.2.2.length then mr st.2.2 y else mr y st.2.2
    let a := add_n st.2.1 (wt.take ys)
    let r := incr ((wt.drop ys).take st.2.2.length) a.2
    st.1 ++ a.1 ++ r.1
  else []

/-- mul_rec(wp, xp, xs, yp, ys, scratch), fueled: the fuel only bounds
the recursion depth (each recursive entry consumes one unit) and is
chosen large enough at the call sites; on exhaustion the model returns
junk ([]). -/
def mulRecF : Nat → List Nat → List Nat → List Nat
  | 0, _, _ => []
  | fuel + 1, x, y =>
    match mulRecBranch x.length y.length with
    | Algo.basecase => mul_basecase x y
    | Algo.unbalanced =>
      unbalWith (toom22With (mulRecF fuel)) (mulRecF fuel) x.length x y
    | Algo.toom22 => toom22With (mulRecF fuel) x y

/-- mul(wp, xp, xs, yp, ys) (lines 305-326): dispatch on mulBranch; the
non-base branches allocate the 2*xs-limb scratch arena (implicit in the
functional model) and call mul_unbalanced or mul_toom22. -/
def mul (x y : List Nat) : List Nat :=
  match mulBranch x.length y.length with
  | Algo.basecase => mul_basecase x y
  | Algo.unbalanced =>
    unbalWith (toom22With (mulRecF (x.length + y.length)))
      (mulRecF (x.length + y.length)) x.length x y
  | Algo.toom22 => toom22With (mulRecF (x.length + y.length)) x y

/-! ## Squaring (src/ll/mul.rs, sqr lines 567-579, sqr_rec 581-588,
sqr_toom2 590-629) -/

/-- sqr_toom2(wp, xp, xs, scratch): z1 = x0*x1 via mul_rec, z0 and z2 by
recursive squaring, then z1 is doubled in place, added at offset xl over
xs limbs, and the final carry applied by incr at offset xl + xs. -/
def sqrToom2With (srec : List Nat → List Nat) (x : List Nat) : List Nat :=
  let xs := x.length
  let xh := xs / 2
  let xl := xs - xh
  let x0 := x.take xl
  let x1 := x.drop xl
  let z1 := mulRecF xs x0 x1
  let z0 := srec x0
  let z2 := srec x1
  let d := add_n z1 z1
  let w := z0 ++ z2
  let m := add_n ((w.drop xl).take xs) d.1
  let cy := (d.2 + m.2) % B
  let w2 := w.take xl ++ m.1 ++ w.drop (xl + xs)
  let t := incr (w2.drop (xl + xs)) cy
  w2.take (xl + xs) ++ t.1

/-- sqr_rec: base case below the threshold (strict), else sqr_toom2. -/
def sqrRecF : Nat → List Nat → List Nat
  | 0, _ => []
  | f + 1, x =>
    if x.length < TOOM22_THRESHOLD then mul_basecase x x
    else sqrToom2With (sqrRecF f) x

/-- sqr(wp, xp, xs): base case when xs <= threshold, else allocate the
2*xs scratch and run sqr_toom2. -/
def sqr (x : List Nat) : List Nat :=
  if x.length ≤ TOOM22_THRESHOLD then mul_basecase x x
  else sqrToom2With (sqrRecF x.length) x

/-! ## Allocation / write ordering (for the failure-semantics claim)

A coarse trace of the observable events of a mul call: arena
allocations and writes to the output buffer wp, in program order.
mul_basecase and mul_toom22 write wp and allocate nothing;
mul_unbalanced first runs a toom22 into wp (line 521), then creates its
own arena for w_tmp (lines 531-532), then performs further writes. -/

inductive Ev
  | alloc
  | writeW
deriving DecidableEq, BEq

def toom22Events : List Ev := [Ev.writeW]

def unbalancedEvents : List Ev := toom22Events ++ [Ev.alloc, Ev.writeW]

/-- Events of mul(wp, xp, xs, yp, ys): the base case only writes; the
other branches allocate the top-level scratch first (lines 315-316). -/
def mulEvents (xs ys : Nat) : List Ev :=
  match mulBranch xs ys with
  | Algo.basecase => [Ev.writeW]
  | Algo.unbalanced => Ev.alloc :: unbalancedEvents
  | Algo.toom22 => Ev.alloc :: toom22Events

/-- Some write to wp happens strictly before some later allocation. -/
def allocAfterWrite : List Ev → Bool
  | [] => false
  | Ev.alloc :: l => allocAfterWrite l
  | Ev.writeW :: l => l.contains Ev.alloc || allocAfterWrite l

/-- If the trace contains an allocation at all, its first event is an
allocation (so the top-level allocation precedes every write). -/
def headAllocIfAny (l : List Ev) : Bool :=
  !(l.contains Ev.alloc) || (l.head? == some Ev.alloc)

/-! ## The Toom-22 split sizes (for the invariant claim) -/

/-- xh = xs >> 1 (line 387). -/
def toomXh (xs : Nat) : Nat := xs / 2

/-- nl = xs - xh (line 388). -/
def toomNl (xs : Nat) : Nat := xs - toomXh xs

/-- yh = ys - nl (line 389). -/
def toomYh (xs ys : Nat) : Nat := ys - toomNl xs

/-! ## A concrete input on which the Toom-22 carry tracking fails.

badX has 21 limbs: its value is B^11 - 2 and its top ten limbs are
zero.  It is a legal input to mul (sizes 21 >= 21 >= 1, buffers
disjoint); mul dispatches it to mul_toom22. -/

def badX : List Nat := (2 ^ 64 - 2) :: (List.replicate 10 (2 ^ 64 - 1) ++ List.replicate 10 0)

/-- A normalized failing input (top limb nonzero): 42 limbs whose low
half is badX and whose high half is B^20 (limb 41 is 1).  The
dispatcher sends (42, 42) to mul_toom22 with nl = 21, whose recursive
call mul_rec(x0, 21, y0, 21) runs mul_toom22 on the badX halves; so the
carry slip is reachable even though the ramp Int wrapper only ever
passes operands without leading zero limbs. -/
def badDeep : List Nat := badX ++ (List.replicate 20 0 ++ [1])

end RampMul

namespace RampMul

theorem B_pos : 0 < B := by decide

theorem bounded_cons {a : Nat} {l : List Nat} : bounded (a :: l) ↔ a < B ∧ bounded l := by
  simp [bounded]

theorem value_append (l1 l2 : List Nat) :
    value (l1 ++ l2) = value l1 + B ^ l1.length * value l2 := by
  induction l1 with
  | nil => simp [value]
  | cons a l ih =>
    have h0 : value (a :: l ++ l2) = a + B * value (l ++ l2) := rfl
    rw [h0, ih, List.length_cons, pow_succ]
    simp only [value]
    ring

theorem value_lt (l : List Nat) (h : bounded l) : value l < B ^ l.length := by
  induction l with
  | nil => simp [value]
  | cons a l ih =>
    have ha : a < B := h a (by simp)
    have hl := ih (fun b hb => h b (by simp [hb]))
    simp only [value, List.length_cons, pow_succ]
    calc a + B * value l < B + B * value l := by omega
      _ = B * (value l + 1) := by ring
      _ ≤ B * B ^ l.length := Nat.mul_le_mul_left _ hl
      _ = B ^ l.length * B := by ring

/-! Scalar carry bookkeeping identities used by the inductive steps. -/

theorem carry_mul1 (p q c r1 rE : Nat)
    (ih : r1 + rE = q + (p / B + (p % B + c) / B)) :
    (p % B + c) % B + B * r1 + rE * B = p + B * q + c := by
  simp only [B] at *
  omega

theorem carry_addmul (p qx qw c w r1 rE : Nat)
    (ih : r1 + rE = qw + qx + (p / B + (p % B + c) / B + (w + (p % B + c) % B) / B)) :
    (w + (p % B + c) % B) % B + B * r1 + rE * B = w + B * qw + (p + B * qx) + c := by
  simp only [B] at *
  omega

theorem carry_add (x y c q1 q2 r1 rE : Nat)
    (ih : r1 + rE = q1 + q2 + (x + y + c) / B) :
    (x + y + c) % B + B * r1 + rE * B = x + B * q1 + (y + B * q2) + c := by
  simp only [B] at *
  omega

theorem carry_incr (a v q r1 rE : Nat) (ih : r1 + rE = q + (a + v) / B) :
    (a + v) % B + B * r1 + rE * B = a + B * q + v := by
  simp only [B] at *
  omega

/-! mul_1 law. -/

theorem mul_1_go_spec (v : Nat) :
    ∀ (x : List Nat) (c : Nat),
      value (mul_1_go x v c).1 + (mul_1_go x v c).2 * B ^ x.length = value x * v + c
      ∧ (mul_1_go x v c).1.length = x.length
  | [], c => by simp [mul_1_go, value]
  | xl :: xp, c => by
    obtain ⟨ih1, ih2⟩ := mul_1_go_spec v xp (xl * v / B + (xl * v % B + c) / B)
    refine ⟨?_, ?_⟩
    · simp only [mul_1_go, value, List.length_cons, pow_succ]
      conv_rhs => rw [add_mul, mul_assoc]
      rw [← mul_assoc]
      exact carry_mul1 (xl * v) (value xp * v) c _ _ ih1
    · simp only [mul_1_go, List.length_cons, ih2]

theorem mul_1_go_lt (v : Nat) (hv : v < B) :
    ∀ (x : List Nat) (c : Nat), bounded x → c < B →
      (mul_1_go x v c).2 < B ∧ bounded (mul_1_go x v c).1
  | [], c, _, hc => by simpa [mul_1_go, bounded] using hc
  | xl :: xp, c, hx, hc => by
    have hxl : xl < B := hx xl (by simp)
    have hxp : bounded xp := fun b hb => hx b (by simp [hb])
    have hcl : xl * v / B + (xl * v % B + c) / B < B := by
      have h1 : xl * v ≤ (B - 1) * (B - 1) :=
        Nat.mul_le_mul (by omega) (by omega)
      simp only [B] at h1 hxl hc hv ⊢
      omega
    obtain ⟨ih1, ih2⟩ := mul_1_go_lt v hv xp _ hxp hcl
    refine ⟨by simpa [mul_1_go] using ih1, ?_⟩
    simp only [mul_1_go]
    exact bounded_cons.2 ⟨Nat.mod_lt _ B_pos, ih2⟩

/-- C5: the mul_1 law.  For a limb list X of length n >= 1 and a limb v,
mul_1 returns limbs W and a carry with value(W) + carry * B^n =
value(X) * v; the carry (and every intermediate carry, which the
induction threads through the same bound) stays below B, so the update
hi + c1 never overflows a limb; the output has exactly n limbs, each a
limb.  In this embedding the kernel returns the written window, so the
aliasing case wp == xp is the same function of the input contents. -/
theorem mul_1_correct (x : List Nat) (v : Nat) (hx : bounded x) (hv : v < B)
    (hn : 1 ≤ x.length) :
    value (mul_1 x v).1 + (mul_1 x v).2 * B ^ x.length = value x * v
    ∧ (mul_1 x v).2 < B
    ∧ (mul_1 x v).1.length = x.length
    ∧ bounded (mul_1 x v).1 := by
  obtain ⟨h1, h2⟩ := mul_1_go_spec v x 0
  obtain ⟨h3, h4⟩ := mul_1_go_lt v hv x 0 hx B_pos
  exact ⟨by simpa [mul_1] using h1, h3, by simpa [mul_1] using h2, h4⟩

/-- Witness for C5 at X = [2^63], v = 2 (the product is exactly B). -/
theorem mul_1_correct_witness :
    value (mul_1 [2 ^ 63] 2).1 + (mul_1 [2 ^ 63] 2).2 * B ^ 1 = value [2 ^ 63] * 2
    ∧ (mul_1 [2 ^ 63] 2).2 < B
    ∧ (mul_1 [2 ^ 63] 2).1.length = 1
    ∧ bounded (mul_1 [2 ^ 63] 2).1 := by
  have h := mul_1_correct [2 ^ 63] 2 (by decide) (by decide) (by decide)
  simpa using h

/-! addmul_1 law. -/

theorem addmul_1_go_spec (v : Nat) :
    ∀ (w x : List Nat) (c : Nat), w.length = x.length →
      value (addmul_1_go w x v c).1 + (addmul_1_go w x v c).2 * B ^ x.length
        = value w + value x * v + c
      ∧ (addmul_1_go w x v c).1.length = x.length
  | [], [], c, _ => by simp [addmul_1_go, value]
  | [], _ :: _, c, h => by simp at h
  | _ :: _, [], c, h => by simp at h
  | wl :: wp, xl :: xp, c, h => by
    have hlen : wp.length = xp.length := by simpa using h
    obtain ⟨ih1, ih2⟩ := addmul_1_go_spec v wp xp
      (xl * v / B + (xl * v % B + c) / B + (wl + (xl * v % B + c) % B) / B) hlen
    refine ⟨?_, ?_⟩
    · simp only [addmul_1_go, value, List.length_cons, pow_succ]
      conv_rhs => rw [add_mul, mul_assoc]
      rw [← mul_assoc]
      exact carry_addmul (xl * v) (value xp * v) (value wp) c wl _ _ ih1
    · simp only [addmul_1_go, List.length_cons, ih2]

/-- C6: the addmul_1 law.  Given initial contents W of {wp,n} and X of
length n >= 1, addmul_1 returns the new contents W2 and a limb c with
value(W2) + c * B^n = value(W) + value(X) * v, and W2 again has n
limbs. -/
theorem addmul_1_correct (w x : List Nat) (v : Nat) (hl : w.length = x.length)
    (hn : 1 ≤ x.length) :
    value (addmul_1 w x v).1 + (addmul_1 w x v).2 * B ^ x.length
      = value w + value x * v
    ∧ (addmul_1 w x v).1.length = x.length := by
  obtain ⟨h1, h2⟩ := addmul_1_go_spec v w x 0 hl
  exact ⟨by simpa [addmul_1] using h1, by simpa [addmul_1] using h2⟩

/-- Witness for C6 at W = [1], X = [2], v = 3. -/
theorem addmul_1_correct_witness :
    value (addmul_1 [1] [2] 3).1 + (addmul_1 [1] [2] 3).2 * B ^ 1
      = value [1] + value [2] * 3
    ∧ (addmul_1 [1] [2] 3).1.length = 1 := by
  have h := addmul_1_correct [1] [2] 3 (by decide) (by decide)
  simpa using h

/-! add_n and incr laws (for the unbalanced-loop claim). -/

theorem add_n_go_spec :
    ∀ (a b : List Nat) (c : Nat), a.length = b.length →
      value (add_n_go a b c).1 + (add_n_go a b c).2 * B ^ a.length
        = value a + value b + c
      ∧ (add_n_go a b c).1.length = a.length
  | [], [], c, _ => by simp [add_n_go, value]
  | [], _ :: _, c, h => by simp at h
  | _ :: _, [], c, h => by simp at h
  | x :: l1, y :: l2, c, h => by
    have hlen : l1.length = l2.length := by simpa using h
    obtain ⟨ih1, ih2⟩ := add_n_go_spec l1 l2 ((x + y + c) / B) hlen
    refine ⟨?_, ?_⟩
    · simp only [add_n_go, value, List.length_cons, pow_succ]
      rw [← mul_assoc]
      exact carry_add x y c (value l1) (value l2) _ _ ih1
    · simp only [add_n_go, List.length_cons, ih2]

theorem incr_spec :
    ∀ (l : List Nat) (v : Nat),
      value (incr l v).1 + (incr l v).2 * B ^ l.length = value l + v
      ∧ (incr l v).1.length = l.length
  | [], v => by simp [incr, value]
  | a :: l, v => by
    by_cases h : a + v < B
    · refine ⟨?_, by simp [incr, h]⟩
      simp only [incr, h, if_true, value]
      ring
    · obtain ⟨ih1, ih2⟩ := incr_spec l ((a + v) / B)
      refine ⟨?_, ?_⟩
      · simp only [incr, h, if_false, value, List.length_cons, pow_succ]
        rw [← mul_assoc]
        exact carry_incr a v (value l) _ _ ih1
      · simp [incr, h, ih2]

end RampMul

namespace RampMul

theorem add_n_spec (a b : List Nat) (h : a.length = b.length) :
    value (add_n a b).1 + (add_n a b).2 * B ^ a.length = value a + value b
    ∧ (add_n a b).1.length = a.length := by
  obtain ⟨h1, h2⟩ := add_n_go_spec a b 0 h
  exact ⟨by simpa [add_n] using h1, by simpa [add_n] using h2⟩

/-- C10: one iteration of the accumulation loop of mul_unbalanced.  If
cur holds the ys limbs at wp[off..off+ys) (all genuine limbs), and wt
is the 2*ys-limb block product of the next ys-limb block of x with y,
then the carry of the add_n is absorbed by incr inside the ys copied
high limbs of wt: the carry leaving those ys limbs is 0 and exactly ys
limbs are written, so nothing at or beyond wp + 2*ys is touched. -/
theorem unbal_loop_incr_within (y xblk cur wt : List Nat)
    (hc : cur.length = y.length) (hw : wt.length = 2 * y.length)
    (hxb : xblk.length = y.length)
    (hby : bounded y) (hbx : bounded xblk) (hbc : bounded cur) (hbw : bounded wt)
    (hval : value wt = value xblk * value y) :
    (incr ((wt.drop y.length).take y.length) (add_n cur (wt.take y.length)).2).2 = 0
    ∧ (incr ((wt.drop y.length).take y.length) (add_n cur (wt.take y.length)).2).1.length
        = y.length := by
  set n := y.length with hn
  have hdl : (wt.drop n).length = n := by rw [List.length_drop]; omega
  have htake : (wt.drop n).take n = wt.drop n := List.take_of_length_le (le_of_eq hdl)
  have htl : (wt.take n).length = n := by rw [List.length_take]; omega
  obtain ⟨ha1, ha2⟩ := add_n_spec cur (wt.take n) (by omega)
  rw [hc] at ha1
  obtain ⟨hi1, hi2⟩ := incr_spec (wt.drop n) (add_n cur (wt.take n)).2
  rw [hdl] at hi1
  have hsplit : value wt = value (wt.take n) + B ^ n * value (wt.drop n) := by
    conv_lhs => rw [← List.take_append_drop n wt]
    rw [value_append, htl]
  have hvy : value y < B ^ n := value_lt y hby
  have hvx : value xblk < B ^ n := by
    have h := value_lt xblk hbx
    rwa [hxb] at h
  have hvc : value cur < B ^ n := by
    have h := value_lt cur hbc
    rwa [hc] at h
  rw [htake]
  refine ⟨?_, by rw [hi2, hdl]⟩
  by_contra hne
  have hpos : 1 ≤ (incr (wt.drop n) (add_n cur (wt.take n)).2).2 := by omega
  have hub : value cur + value wt < B ^ n * B ^ n := by
    have h1 : value xblk * value y ≤ (B ^ n - 1) * (B ^ n - 1) :=
      Nat.mul_le_mul (by omega) (by omega)
    have hE : 1 ≤ B ^ n := Nat.one_le_pow _ _ B_pos
    have h2 : (B ^ n - 1) * (B ^ n - 1) + (B ^ n - 1) < B ^ n * B ^ n := by
      obtain ⟨F, hF⟩ : ∃ F, B ^ n = 1 + F := ⟨B ^ n - 1, by omega⟩
      rw [hF]
      have h3 : (1 + F) * (1 + F) = F * F + 2 * F + 1 := by ring
      have h4 : 1 + F - 1 = F := by omega
      rw [h3, h4]
      linarith [Nat.le_refl (F * F)]
    have h5 : value cur + value xblk * value y
        ≤ (B ^ n - 1) + (B ^ n - 1) * (B ^ n - 1) :=
      Nat.add_le_add (by omega) h1
    rw [hval]
    linarith
  have hlb : B ^ n * B ^ n ≤ value cur + value wt := by
    calc B ^ n * B ^ n = B ^ n * (1 * B ^ n) := by ring
      _ ≤ B ^ n * ((incr (wt.drop n) (add_n cur (wt.take n)).2).2 * B ^ n) :=
          Nat.mul_le_mul_left _ (Nat.mul_le_mul_right _ hpos)
      _ ≤ B ^ n * (value (incr (wt.drop n) (add_n cur (wt.take n)).2).1
            + (incr (wt.drop n) (add_n cur (wt.take n)).2).2 * B ^ n) :=
          Nat.mul_le_mul_left _ (Nat.le_add_left _ _)
      _ = B ^ n * (value (wt.drop n) + (add_n cur (wt.take n)).2) := by rw [hi1]
      _ = B ^ n * value (wt.drop n) + B ^ n * (add_n cur (wt.take n)).2 := by ring
      _ ≤ B ^ n * value (wt.drop n)
            + (value (add_n cur (wt.take n)).1 + (add_n cur (wt.take n)).2 * B ^ n) := by
          have h6 : B ^ n * (add_n cur (wt.take n)).2
              ≤ value (add_n cur (wt.take n)).1 + (add_n cur (wt.take n)).2 * B ^ n := by
            rw [mul_comm]
            exact Nat.le_add_left _ _
          exact Nat.add_le_add_left h6 _
      _ = B ^ n * value (wt.drop n) + (value cur + value (wt.take n)) := by rw [ha1]
      _ = value cur + (value (wt.take n) + B ^ n * value (wt.drop n)) := by ring
      _ = value cur + value wt := by rw [← hsplit]
  exact absurd hlb (not_le.mpr hub)

/-- Witness for C10 at ys = 1: y = [2], block [3], cur = [1], block
product wt = [6, 0]. -/
theorem unbal_loop_incr_within_witness :
    (incr (([6, 0].drop 1).take 1) (add_n [1] ([6, 0].take 1)).2).2 = 0
    ∧ (incr (([6, 0].drop 1).take 1) (add_n [1] ([6, 0].take 1)).2).1.length = 1 := by
  have h := unbal_loop_incr_within [2] [3] [1] [6, 0] (by decide) (by decide)
    (by decide) (by decide) (by decide) (by decide) (by decide) (by decide)
  simpa using h

/-- C2 counterexample: xs = 3, ys = 2 satisfies the precondition
ys <= xs < 2*ys of the claim, yet yh = ys - nl = 0, so the asserted
invariant 0 < yh fails. -/
theorem toom22_invariants_cex :
    (2 ≤ 3 ∧ 3 < 2 * 2)
    ∧ ¬ (0 < toomXh 3 ∧ toomXh 3 ≤ toomNl 3
          ∧ 0 < toomYh 3 2 ∧ toomYh 3 2 ≤ toomXh 3) := by decide

/-- C2 amended: under the stronger precondition the dispatchers actually
establish before calling mul_toom22 (ys <= xs and 2*xs < 3*ys with
ys >= 2), all four invariants hold. -/
theorem toom22_invariants_amended (xs ys : Nat) (h2 : 2 ≤ ys) (hyx : ys ≤ xs)
    (hd : 2 * xs < 3 * ys) :
    0 < toomXh xs ∧ toomXh xs ≤ toomNl xs
    ∧ 0 < toomYh xs ys ∧ toomYh xs ys ≤ toomXh xs := by
  simp only [toomXh, toomNl, toomYh]
  omega

/-- Witness for the amended C2 at xs = ys = 21. -/
theorem toom22_invariants_amended_witness :
    0 < toomXh 21 ∧ toomXh 21 ≤ toomNl 21
    ∧ 0 < toomYh 21 21 ∧ toomYh 21 21 ≤ toomXh 21 :=
  toom22_invariants_amended 21 21 (by decide) (by decide) (by decide)

/-- C3 counterexample: at xs = ys = 20 the claim fails: mul picks the
base case (ys <= 20) but mul_rec does not (its test is ys < 20), and
dispatches to mul_toom22 instead. -/
theorem dispatch_cex :
    mulBranch 20 20 = Algo.basecase
    ∧ mulRecBranch 20 20 = Algo.toom22
    ∧ mulRecBranch 20 20 ≠ mulBranch 20 20 := by decide

/-- C3 amended: mul_rec selects the base case exactly when ys < 20
(strictly), and away from the boundary ys = 20 the two dispatchers
agree on every size pair. -/
theorem dispatch_amended (xs ys : Nat) (h1 : 1 ≤ ys) (h2 : ys ≤ xs)
    (hne : ys ≠ TOOM22_THRESHOLD) :
    (mulRecBranch xs ys = Algo.basecase ↔ ys < TOOM22_THRESHOLD)
    ∧ mulRecBranch xs ys = mulBranch xs ys := by
  unfold mulRecBranch mulBranch TOOM22_THRESHOLD at *
  split_ifs <;> simp_all <;> omega

/-- Witness for the amended C3 at xs = 30, ys = 25. -/
theorem dispatch_amended_witness :
    (mulRecBranch 30 25 = Algo.basecase ↔ 25 < TOOM22_THRESHOLD)
    ∧ mulRecBranch 30 25 = mulBranch 30 25 :=
  dispatch_amended 30 25 (by decide) (by decide) (by decide)

/-- C4 counterexample: for xs = 32, ys = 21 the dispatcher takes the
unbalanced path, and mul_unbalanced creates its w_tmp arena only after
mul_toom22 has already written the first 2*ys limbs of wp; the trace
has an allocation after a write, so failure of that allocation leaves
observable progress already written to wp. -/
theorem alloc_order_cex : allocAfterWrite (mulEvents 32 21) = true := by decide

/-- C4 amended: the allocation mul itself performs does come first: in
every trace, if any allocation occurs at all, the first event is an
allocation, so failure of the top-level scratch allocation is
observable only before any limb of wp is written. -/
theorem alloc_order_amended (xs ys : Nat) :
    headAllocIfAny (mulEvents xs ys) = true := by
  unfold mulEvents
  cases h : mulBranch xs ys <;> rfl

/-- C9: at x = y = badX (a legal 21-limb input that mul sends to
mul_toom22), the z1-subtraction step of mul_toom22 runs in the
z1-nonnegative branch with accumulated carry cy = 0 while sub_n
returns borrow 1: the borrow exceeds cy and the wrapping update
cy - borrow underflows to B - 1. -/
theorem toom22_cy_underflow :
    toom22CyBorrow (mulRecF 42) badX badX = some (0, 1) := by decide

/-- C1: mul miscomputes the product at X = Y = badX: the output value
exceeds value(X) * value(Y) by exactly B^34 (the wrapped carry B - 1
applied by incr at limb offset 3*nl = 33). -/
theorem mul_value_bug :
    value (mul badX badX) ≠ value badX * value badX
    ∧ value (mul badX badX) = value badX * value badX + B ^ 34 := by decide

set_option maxRecDepth 8000 in
/-- The same failure with a normalized operand: badDeep has a nonzero
top limb, yet mul(badDeep, badDeep) is not the square of its value,
because the inner recursion feeds the badX halves to mul_toom22. -/
theorem mul_value_bug_normalized :
    value (mul badDeep badDeep) ≠ value badDeep * value badDeep := by decide

/-- C8: at X = Y = badX the dispatcher (Toom-22 path) and the pure base
case disagree; the base case yields the true product. -/
theorem mul_ne_basecase_bug :
    mul badX badX ≠ mul_basecase badX badX
    ∧ value (mul_basecase badX badX) = value badX * value badX
    ∧ (mul_basecase badX badX).length = 21 + 21 := by decide

/-- C7: at X = badX, sqr computes the true square but mul(X, X) does
not, so the two disagree. -/
theorem sqr_ne_mul_bug :
    sqr badX ≠ mul badX badX
    ∧ value (sqr badX) = value badX * value badX := by decide

end RampMul

namespace RampMul

theorem addmul_1_go_lt (v : Nat) (hv : v < B) :
    ∀ (w x : List Nat) (c : Nat), bounded w → bounded x → c < B →
      (addmul_1_go w x v c).2 < B ∧ bounded (addmul_1_go w x v c).1
  | [], _, c, _, _, hc => by simpa [addmul_1_go, bounded] using hc
  | _ :: _, [], c, _, _, hc => by simpa [addmul_1_go, bounded] using hc
  | wl :: wp, xl :: xp, c, hw, hx, hc => by
    have hwl : wl < B := hw wl (by simp)
    have hxl : xl < B := hx xl (by simp)
    have hwp : bounded wp := fun b hb => hw b (by simp [hb])
    have hxp : bounded xp := fun b hb => hx b (by simp [hb])
    have hcl : xl * v / B + (xl * v % B + c) / B
        + (wl + (xl * v % B + c) % B) / B < B := by
      have h1 : xl * v ≤ (B - 1) * (B - 1) :=
        Nat.mul_le_mul (by omega) (by omega)
      simp only [B] at h1 hwl hxl hc hv ⊢
      omega
    obtain ⟨ih1, ih2⟩ := addmul_1_go_lt v hv wp xp _ hwp hxp hcl
    refine ⟨by simpa [addmul_1_go] using ih1, ?_⟩
    simp only [addmul_1_go]
    exact bounded_cons.2 ⟨Nat.mod_lt _ B_pos, ih2⟩

/-! Wrappers at the kernel level (used by the base-case proof). -/

theorem mul_1_spec (x : List Nat) (v : Nat) :
    value (mul_1 x v).1 + (mul_1 x v).2 * B ^ x.length = value x * v
    ∧ (mul_1 x v).1.length = x.length := by
  obtain ⟨h1, h2⟩ := mul_1_go_spec v x 0
  exact ⟨by simpa [mul_1] using h1, by simpa [mul_1] using h2⟩

theorem mul_1_lt (x : List Nat) (v : Nat) (hv : v < B) (hx : bounded x) :
    (mul_1 x v).2 < B ∧ bounded (mul_1 x v).1 := by
  simpa [mul_1] using mul_1_go_lt v hv x 0 hx B_pos

theorem addmul_1_spec (w x : List Nat) (v : Nat) (h : w.length = x.length) :
    value (addmul_1 w x v).1 + (addmul_1 w x v).2 * B ^ x.length
      = value w + value x * v
    ∧ (addmul_1 w x v).1.length = x.length := by
  obtain ⟨h1, h2⟩ := addmul_1_go_spec v w x 0 h
  exact ⟨by simpa [addmul_1] using h1, by simpa [addmul_1] using h2⟩

theorem addmul_1_lt (w x : List Nat) (v : Nat) (hv : v < B)
    (hw : bounded w) (hx : bounded x) :
    (addmul_1 w x v).2 < B ∧ bounded (addmul_1 w x v).1 := by
  simpa [addmul_1] using addmul_1_go_lt v hv w x 0 hw hx B_pos

theorem bounded_append {l1 l2 : List Nat} (h1 : bounded l1) (h2 : bounded l2) :
    bounded (l1 ++ l2) := by
  intro a ha
  rcases List.mem_append.1 ha with h | h
  · exact h1 a h
  · exact h2 a h

theorem bcLoop_spec (x : List Nat) (hx : bounded x) (hxn : 1 ≤ x.length) :
    ∀ (yp w : List Nat), bounded yp → bounded w → w.length = x.length →
      value (bcLoop x yp w) = value w + value x * value yp
      ∧ (bcLoop x yp w).length = x.length + yp.length
      ∧ bounded (bcLoop x yp w)
  | [], w, _, hw, hl => by
    refine ⟨by simp [bcLoop, value], by simp [bcLoop, hl], by simpa [bcLoop] using hw⟩
  | yl :: yr, w, hyp, hw, hl => by
    have hyl : yl < B := hyp yl (by simp)
    have hyr : bounded yr := fun b hb => hyp b (by simp [hb])
    obtain ⟨am1, am2⟩ := addmul_1_spec w x yl hl
    obtain ⟨am3, am4⟩ := addmul_1_lt w x yl hyl hw hx
    rcases hw2 : (addmul_1 w x yl).1 with _ | ⟨d, rest⟩
    · exfalso
      rw [hw2] at am2
      simp at am2
      omega
    · rw [hw2] at am1 am2 am4
      have hrest : rest.length + 1 = x.length := by simpa using am2
      have hbw2 : bounded (rest ++ [(addmul_1 w x yl).2]) := by
        refine bounded_append (fun b hb => am4 b (by simp [hb])) ?_
        intro b hb
        simp at hb
        subst hb
        exact am3
      obtain ⟨ih1, ih2, ih3⟩ := bcLoop_spec x hx hxn yr (rest ++ [(addmul_1 w x yl).2])
        hyr hbw2 (by simp [hrest])
      have hgoal : bcLoop x (yl :: yr) w
          = d :: bcLoop x yr (rest ++ [(addmul_1 w x yl).2]) := by
        simp only [bcLoop, hw2]
      refine ⟨?_, ?_, ?_⟩
      · rw [hgoal]
        simp only [value, ih1]
        rw [value_append]
        have hvc : value [(addmul_1 w x yl).2] = (addmul_1 w x yl).2 := by
          simp [value]
        rw [hvc]
        have am1v : d + B * value rest + (addmul_1 w x yl).2 * B ^ x.length
            = value w + value x * yl := by
          simpa [value] using am1
        have hpow : B ^ x.length = B * B ^ rest.length := by
          rw [show x.length = rest.length + 1 by omega, pow_succ]
          ring
        have hexp : value x * (yl + B * value yr)
            = value x * yl + B * (value x * value yr) := by ring
        simp only [hexp]
        rw [hpow] at am1v
        linarith [am1v]
      · rw [hgoal]
        simp only [List.length_cons, ih2]
        omega
      · rw [hgoal]
        refine bounded_cons.2 ⟨am4 d (by simp), ih3⟩

/-- Correctness of the schoolbook base case: for genuine limb inputs
with xs >= 1, ys >= 1, mul_basecase returns exactly xs + ys limbs whose
base-B value is value(X) * value(Y). -/
theorem mul_basecase_correct (x y : List Nat) (hx : bounded x) (hy : bounded y)
    (hxn : 1 ≤ x.length) (hyn : 1 ≤ y.length) :
    value (mul_basecase x y) = value x * value y
    ∧ (mul_basecase x y).length = x.length + y.length
    ∧ bounded (mul_basecase x y) := by
  rcases y with _ | ⟨yl, yr⟩
  · simp at hyn
  · have hyl : yl < B := hy yl (by simp)
    have hyr : bounded yr := fun b hb => hy b (by simp [hb])
    obtain ⟨m1, m2⟩ := mul_1_spec x yl
    obtain ⟨m3, m4⟩ := mul_1_lt x yl hyl hx
    rcases hw : (mul_1 x yl).1 with _ | ⟨d, rest⟩
    · exfalso
      rw [hw] at m2
      simp at m2
      omega
    · rw [hw] at m1 m2 m4
      have hrest : rest.length + 1 = x.length := by simpa using m2
      have hbw2 : bounded (rest ++ [(mul_1 x yl).2]) := by
        refine bounded_append (fun b hb => m4 b (by simp [hb])) ?_
        intro b hb
        simp at hb
        subst hb
        exact m3
      obtain ⟨ih1, ih2, ih3⟩ := bcLoop_spec x hx hxn yr (rest ++ [(mul_1 x yl).2])
        hyr hbw2 (by simp [hrest])
      have hgoal : mul_basecase x (yl :: yr)
          = d :: bcLoop x yr (rest ++ [(mul_1 x yl).2]) := by
        simp only [mul_basecase, hw]
      refine ⟨?_, ?_, ?_⟩
      · rw [hgoal]
        simp only [value, ih1]
        rw [value_append]
        have hvc : value [(mul_1 x yl).2] = (mul_1 x yl).2 := by simp [value]
        rw [hvc]
        have m1v : d + B * value rest + (mul_1 x yl).2 * B ^ x.length
            = value x * yl := by
          simpa [value] using m1
        have hpow : B ^ x.length = B * B ^ rest.length := by
          rw [show x.length = rest.length + 1 by omega, pow_succ]
          ring
        have hexp : value x * (yl + B * value yr)
            = value x * yl + B * (value x * value yr) := by ring
        simp only [hexp]
        rw [hpow] at m1v
        linarith [m1v]
      · rw [hgoal]
        simp only [List.length_cons, ih2]
        omega
      · rw [hgoal]
        refine bounded_cons.2 ⟨m4 d (by simp), ih3⟩

end RampMul
